import Mathlib

/-!
Shallow embedding of the patch-tiling / mask-batch preprocessing code
(`src/preprocessing/patches.py` and `src/preprocessing/ct_masked_batch.py`),
together with theorems settling the spec claims about it.

Volumes (`float64` 3d arrays) are embedded as total functions from voxel
coordinates to `ℚ`; only values inside a volume's declared shape are ever
relevant to a theorem.  Loops that fill arrays become list enumerations in
the same iteration order, and elementwise float arithmetic becomes exact
`ℚ`/`ℤ` arithmetic (the float operations involved — comparisons, `rint`,
floor division, the clamps — are exact on the magnitudes at stake).
-/

/-- A 3d volume (one patient's `float64` array), indexed by voxel coordinates.
-/
abbrev Vol3 : Type := ℕ → ℕ → ℕ → ℚ

/-- `num_sections = (img_shape - patch_shape) // stride + 1` (patches.py line
31 and line 79).  The source computes this with float floor-division, embedded
by `Int.fdiv`; `range(int(num_sections))` turns a non-positive count into an
empty loop, embedded by `Int.toNat`. -/
def num_sections (n p s : ℕ) : ℕ :=
  (((n : ℤ) - (p : ℤ)).fdiv (s : ℤ) + 1).toNat

/-- The triple-nested loop of both `put_patches_numba` and `assemble_patches`
(`for ix in range(a): for iy in range(b): for iz in range(c)`), as the list of
index triples visited, in visiting order; the running counter `ctr` of the
source is the position in this list. -/
def tileIndices (a b c : ℕ) : List (ℕ × ℕ × ℕ) :=
  (List.range a).flatMap fun ix =>
    (List.range b).flatMap fun iy =>
      (List.range c).map fun iz => (ix, iy, iz)

/-- `put_patches_numba` (patches.py lines 8-42): the `ctr`-th entry of
`out_arr` is the sub-volume of `img` whose corner is
`(ix*stride[0], iy*stride[1], iz*stride[2])` for the `ctr`-th loop triple
`(ix, iy, iz)`.  A patch, like a volume, is a total function; only its
entries below `patch_shape` are meaningful. -/
def put_patches_numba (img : Vol3) (n0 n1 n2 p0 p1 p2 s0 s1 s2 : ℕ) :
    List Vol3 :=
  (tileIndices (num_sections n0 p0 s0) (num_sections n1 p1 s1)
      (num_sections n2 p2 s2)).map
    fun t => fun a b c => img (t.1 * s0 + a) (t.2.1 * s1 + b) (t.2.2 * s2 + c)

/-- `assemble_patches` (patches.py lines 49-96), read pointwise: voxel
`(x, y, z)` of the output accumulates `patches[ctr]` exactly for the loop
triples whose box contains it, a matching per-voxel weight is accumulated,
and the result is the quotient.

The accumulation target on line 91 of the source is the undefined name `img`
(a slip: `img` is a parameter of `put_patches_numba`, not of this function);
the docstring ("put the scan into out_arr") and the final line
`out_arr /= weights_inv` show `out_arr` is intended, and this embedding models
that intent.  A voxel covered by no patch divides `0 / 0`, which is `0` in
`ℚ` (numpy would produce NaN); no theorem below evaluates such a voxel. -/
def assemble_patches (patches : List Vol3) (p0 p1 p2 s0 s1 s2 n0 n1 n2 : ℕ) :
    Vol3 :=
  fun x y z =>
    let pairs := (tileIndices (num_sections n0 p0 s0) (num_sections n1 p1 s1)
        (num_sections n2 p2 s2)).zip patches
    let acc := (pairs.map fun pr =>
      if pr.1.1 * s0 ≤ x ∧ x < pr.1.1 * s0 + p0 ∧
         pr.1.2.1 * s1 ≤ y ∧ y < pr.1.2.1 * s1 + p1 ∧
         pr.1.2.2 * s2 ≤ z ∧ z < pr.1.2.2 * s2 + p2 then
        pr.2 (x - pr.1.1 * s0) (y - pr.1.2.1 * s1) (z - pr.1.2.2 * s2)
      else 0).sum
    let wt := (pairs.map fun pr =>
      if pr.1.1 * s0 ≤ x ∧ x < pr.1.1 * s0 + p0 ∧
         pr.1.2.1 * s1 ≤ y ∧ y < pr.1.2.1 * s1 + p1 ∧
         pr.1.2.2 * s2 ≤ z ∧ z < pr.1.2.2 * s2 + p2 then
        (1 : ℚ)
      else 0).sum
    acc / wt

/-! ### Helper lemmas about the loop enumeration -/

theorem length_innerBlock (b c ix : ℕ) :
    ((List.range b).flatMap fun iy =>
      (List.range c).map fun iz => (ix, iy, iz)).length = b * c := by
  induction b with
  | zero => simp
  | succ b ih =>
    rw [List.range_succ, List.flatMap_append, List.length_append, ih]
    simp [Nat.succ_mul]

theorem tileIndices_succ (a b c : ℕ) :
    tileIndices (a + 1) b c
      = tileIndices a b c
        ++ ((List.range b).flatMap fun iy =>
              (List.range c).map fun iz => (a, iy, iz)) := by
  rw [tileIndices, List.range_succ, List.flatMap_append]
  simp only [List.flatMap_cons, List.flatMap_nil, List.append_nil]
  rfl

theorem length_tileIndices (a b c : ℕ) :
    (tileIndices a b c).length = a * (b * c) := by
  induction a with
  | zero => simp [tileIndices]
  | succ a ih =>
    rw [tileIndices_succ, List.length_append, ih, length_innerBlock]
    ring

theorem innerRow_get (c ix iy iz : ℕ) (hc : iz < c) :
    ((List.range c).map fun j => (ix, iy, j))[iz]? = some (ix, iy, iz) := by
  rw [List.getElem?_map, List.getElem?_range hc]
  rfl

theorem innerBlock_get (b c ix iy iz : ℕ) (hb : iy < b) (hc : iz < c) :
    ((List.range b).flatMap fun j =>
      (List.range c).map fun k => (ix, j, k))[iy * c + iz]?
      = some (ix, iy, iz) := by
  induction b with
  | zero => omega
  | succ b ih =>
    rw [List.range_succ, List.flatMap_append]
    rcases Nat.lt_or_ge iy b with h | h
    · rw [List.getElem?_append_left]
      · exact ih h
      · rw [length_innerBlock]
        calc iy * c + iz < iy * c + c := by omega
          _ = (iy + 1) * c := by ring
          _ ≤ b * c := Nat.mul_le_mul_right c (by omega)
    · obtain rfl : iy = b := by omega
      rw [List.getElem?_append_right]
      · rw [length_innerBlock]
        have hsub : iy * c + iz - iy * c = iz := by omega
        rw [hsub]
        simp only [List.flatMap_cons, List.flatMap_nil, List.append_nil]
        exact innerRow_get c ix iy iz hc
      · rw [length_innerBlock]
        omega

theorem tileIndices_get (a b c ix iy iz : ℕ)
    (ha : ix < a) (hb : iy < b) (hc : iz < c) :
    (tileIndices a b c)[(ix * b + iy) * c + iz]? = some (ix, iy, iz) := by
  induction a with
  | zero => omega
  | succ a ih =>
    rw [tileIndices_succ]
    rcases Nat.lt_or_ge ix a with h | h
    · rw [List.getElem?_append_left]
      · exact ih h
      · rw [length_tileIndices a b c]
        calc (ix * b + iy) * c + iz < (ix * b + iy) * c + c := by omega
          _ = (ix * b + iy + 1) * c := by ring
          _ ≤ (ix * b + b) * c := Nat.mul_le_mul_right c (by omega)
          _ = (ix + 1) * (b * c) := by ring
          _ ≤ a * (b * c) := Nat.mul_le_mul_right (b * c) (by omega)
    · obtain rfl : ix = a := by omega
      rw [List.getElem?_append_right]
      · rw [length_tileIndices ix b c]
        have hsub : (ix * b + iy) * c + iz - ix * (b * c) = iy * c + iz := by
          have h1 : (ix * b + iy) * c = ix * (b * c) + iy * c := by ring
          omega
        rw [hsub]
        exact innerBlock_get b c ix iy iz hb hc
      · rw [length_tileIndices ix b c]
        have h1 : (ix * b + iy) * c = ix * (b * c) + iy * c := by ring
        omega

/-! ### Helper lemmas about sums over the loop enumeration -/

theorem list_sum_map_flatMap {α β : Type} (l : List α) (g : α → List β)
    (f : β → ℚ) :
    ((l.flatMap g).map f).sum = (l.map fun a => ((g a).map f).sum).sum := by
  induction l with
  | nil => simp
  | cons a t ih => simp [List.flatMap_cons, ih]

theorem list_sum_map_range_zero (n : ℕ) (f : ℕ → ℚ)
    (h : ∀ j, j < n → f j = 0) :
    ((List.range n).map f).sum = 0 := by
  induction n with
  | zero => rfl
  | succ n ih =>
    rw [List.range_succ, List.map_append, List.sum_append]
    rw [ih fun j hj => h j (by omega)]
    simp [h n (by omega)]

theorem list_sum_map_range_single (n k : ℕ) (f : ℕ → ℚ) (hk : k < n)
    (h : ∀ j, j < n → j ≠ k → f j = 0) :
    ((List.range n).map f).sum = f k := by
  induction n with
  | zero => omega
  | succ n ih =>
    rw [List.range_succ, List.map_append, List.sum_append]
    rcases Nat.lt_or_ge k n with hlt | hge
    · rw [ih hlt fun j hj hjk => h j (by omega) hjk]
      have hn : f n = 0 := h n (by omega) (by omega)
      simp [hn]
    · obtain rfl : k = n := by omega
      rw [list_sum_map_range_zero k f fun j hj => h j (by omega) (by omega)]
      simp

theorem tile_sum_nested (f : ℕ × ℕ × ℕ → ℚ) (a b c : ℕ) :
    ((tileIndices a b c).map f).sum
      = ((List.range a).map fun ix =>
          ((List.range b).map fun iy =>
            ((List.range c).map fun iz => f (ix, iy, iz)).sum).sum).sum := by
  rw [tileIndices, list_sum_map_flatMap]
  apply congrArg List.sum
  apply List.map_congr_left
  intro ix _
  rw [list_sum_map_flatMap]
  apply congrArg List.sum
  apply List.map_congr_left
  intro iy _
  rw [List.map_map]
  rfl

theorem tile_sum_single (f : ℕ × ℕ × ℕ → ℚ) (a b c k0 k1 k2 : ℕ)
    (ha : k0 < a) (hb : k1 < b) (hc : k2 < c)
    (h0 : ∀ ix iy iz, ix < a → iy < b → iz < c →
      (ix, iy, iz) ≠ (k0, k1, k2) → f (ix, iy, iz) = 0) :
    ((tileIndices a b c).map f).sum = f (k0, k1, k2) := by
  rw [tile_sum_nested]
  rw [list_sum_map_range_single a k0 _ ha ?_]
  · rw [list_sum_map_range_single b k1 _ hb ?_]
    · exact list_sum_map_range_single c k2 _ hc fun j hj hjk =>
        h0 k0 k1 j ha hb hj (by simp [hjk])
    · intro j hj hjk
      exact list_sum_map_range_zero c _ fun i hi =>
        h0 k0 j i ha hj hi (by simp [hjk])
  · intro j hj hjk
    apply list_sum_map_range_zero
    intro i hi
    exact list_sum_map_range_zero c _ fun m hm =>
      h0 j i m hj hi hm (by simp [hjk])

theorem zip_map_self {α β : Type} (l : List α) (F : α → β) :
    l.zip (l.map F) = l.map fun a => (a, F a) := by
  induction l with
  | nil => rfl
  | cons a t ih => simp [ih]

/-! ### Arithmetic helpers for section counts and coverage -/

theorem num_sections_of_le (n p s : ℕ) (hp : p ≤ n) (hs : 0 < s) :
    num_sections n p s = (n - p) / s + 1 := by
  unfold num_sections
  have h1 : ((n : ℤ) - (p : ℤ)) = ((n - p : ℕ) : ℤ) := by omega
  rw [h1, ← Int.ofNat_fdiv]
  generalize (n - p) / s = q
  omega

theorem num_sections_exact (p m : ℕ) (hp : 0 < p) :
    num_sections (p * m) p p = m := by
  unfold num_sections
  have h1 : ((p * m : ℕ) : ℤ) - (p : ℤ) = (p : ℤ) * ((m : ℤ) - 1) := by
    push_cast; ring
  rw [h1, Int.mul_fdiv_cancel_left _ (by exact_mod_cast hp.ne')]
  omega

theorem cov_iff {p : ℕ} (hp : 0 < p) (j x : ℕ) :
    (j * p ≤ x ∧ x < j * p + p) ↔ j = x / p := by
  constructor
  · rintro ⟨h1, h2⟩
    have hle : j ≤ x / p := (Nat.le_div_iff_mul_le hp).mpr h1
    have hlt : x / p < j + 1 := by
      apply (Nat.div_lt_iff_lt_mul hp).mpr
      calc x < j * p + p := h2
        _ = (j + 1) * p := by ring
    omega
  · rintro rfl
    refine ⟨Nat.div_mul_le_self x p, ?_⟩
    have h1 := Nat.div_add_mod x p
    have h2 := Nat.mod_lt x hp
    have h3 : p * (x / p) = x / p * p := Nat.mul_comm p (x / p)
    linarith

theorem tile_sum_cover (w : ℕ × ℕ × ℕ → ℚ) (p0 p1 p2 m0 m1 m2 x y z : ℕ)
    (hp0 : 0 < p0) (hp1 : 0 < p1) (hp2 : 0 < p2)
    (hx : x < p0 * m0) (hy : y < p1 * m1) (hz : z < p2 * m2) :
    ((tileIndices m0 m1 m2).map fun t =>
      if t.1 * p0 ≤ x ∧ x < t.1 * p0 + p0 ∧
         t.2.1 * p1 ≤ y ∧ y < t.2.1 * p1 + p1 ∧
         t.2.2 * p2 ≤ z ∧ z < t.2.2 * p2 + p2 then w t else 0).sum
      = w (x / p0, y / p1, z / p2) := by
  have hk0 : x / p0 < m0 := (Nat.div_lt_iff_lt_mul hp0).mpr
    (by rw [Nat.mul_comm]; exact hx)
  have hk1 : y / p1 < m1 := (Nat.div_lt_iff_lt_mul hp1).mpr
    (by rw [Nat.mul_comm]; exact hy)
  have hk2 : z / p2 < m2 := (Nat.div_lt_iff_lt_mul hp2).mpr
    (by rw [Nat.mul_comm]; exact hz)
  have hcov0 : x / p0 * p0 ≤ x ∧ x < x / p0 * p0 + p0 := (cov_iff hp0 _ x).mpr rfl
  have hcov1 : y / p1 * p1 ≤ y ∧ y < y / p1 * p1 + p1 := (cov_iff hp1 _ y).mpr rfl
  have hcov2 : z / p2 * p2 ≤ z ∧ z < z / p2 * p2 + p2 := (cov_iff hp2 _ z).mpr rfl
  rw [tile_sum_single _ m0 m1 m2 (x / p0) (y / p1) (z / p2) hk0 hk1 hk2 ?_]
  · exact if_pos ⟨hcov0.1, hcov0.2, hcov1.1, hcov1.2, hcov2.1, hcov2.2⟩
  · intro ix iy iz _ _ _ hne
    by_cases hcov : ix * p0 ≤ x ∧ x < ix * p0 + p0 ∧
        iy * p1 ≤ y ∧ y < iy * p1 + p1 ∧ iz * p2 ≤ z ∧ z < iz * p2 + p2
    · exfalso
      apply hne
      obtain ⟨c1, c2, c3, c4, c5, c6⟩ := hcov
      have e0 : ix = x / p0 := (cov_iff hp0 ix x).mp ⟨c1, c2⟩
      have e1 : iy = y / p1 := (cov_iff hp1 iy y).mp ⟨c3, c4⟩
      have e2 : iz = z / p2 := (cov_iff hp2 iz z).mp ⟨c5, c6⟩
      simp [e0, e1, e2]
    · exact if_neg hcov

/-- A concrete volume used by the witnesses below. -/
def volWit : Vol3 := fun x y z => (x : ℚ) + 10 * y + 100 * z

/-- C1: with `stride == patch_shape` on each axis, a positive patch shape and
`(shape - patch_shape)` divisible by `stride` on each axis, assembling the
tiling reproduces the original volume exactly at every voxel.  The claim is
the intent of patches.py; the source's `assemble_patches` cannot run as
written because line 91 accumulates into the undefined name `img` (see the
doc comment on `assemble_patches`), so this theorem holds of the embedding
with that slip repaired. -/
theorem tile_assemble_roundtrip
    (img : Vol3) (n0 n1 n2 p0 p1 p2 s0 s1 s2 : ℕ)
    (hp0 : 0 < p0) (hp1 : 0 < p1) (hp2 : 0 < p2)
    (hs0 : s0 = p0) (hs1 : s1 = p1) (hs2 : s2 = p2)
    (hd0 : (s0 : ℤ) ∣ ((n0 : ℤ) - (p0 : ℤ)))
    (hd1 : (s1 : ℤ) ∣ ((n1 : ℤ) - (p1 : ℤ)))
    (hd2 : (s2 : ℤ) ∣ ((n2 : ℤ) - (p2 : ℤ)))
    (x y z : ℕ) (hx : x < n0) (hy : y < n1) (hz : z < n2) :
    assemble_patches (put_patches_numba img n0 n1 n2 p0 p1 p2 s0 s1 s2)
      p0 p1 p2 s0 s1 s2 n0 n1 n2 x y z = img x y z := by
  have hq0 : p0 = s0 := hs0.symm
  have hq1 : p1 = s1 := hs1.symm
  have hq2 : p2 = s2 := hs2.symm
  subst hq0; subst hq1; subst hq2
  obtain ⟨m0, rfl⟩ : p0 ∣ n0 := by
    have hd : (p0 : ℤ) ∣ (n0 : ℤ) := by
      simpa using dvd_add hd0 (dvd_refl (p0 : ℤ))
    exact_mod_cast hd
  obtain ⟨m1, rfl⟩ : p1 ∣ n1 := by
    have hd : (p1 : ℤ) ∣ (n1 : ℤ) := by
      simpa using dvd_add hd1 (dvd_refl (p1 : ℤ))
    exact_mod_cast hd
  obtain ⟨m2, rfl⟩ : p2 ∣ n2 := by
    have hd : (p2 : ℤ) ∣ (n2 : ℤ) := by
      simpa using dvd_add hd2 (dvd_refl (p2 : ℤ))
    exact_mod_cast hd
  have hN0 := num_sections_exact p0 m0 hp0
  have hN1 := num_sections_exact p1 m1 hp1
  have hN2 := num_sections_exact p2 m2 hp2
  simp only [assemble_patches, put_patches_numba, hN0, hN1, hN2]
  rw [zip_map_self]
  simp only [List.map_map, Function.comp_def]
  rw [tile_sum_cover
      (fun t => img (t.1 * p0 + (x - t.1 * p0)) (t.2.1 * p1 + (y - t.2.1 * p1))
        (t.2.2 * p2 + (z - t.2.2 * p2)))
      p0 p1 p2 m0 m1 m2 x y z hp0 hp1 hp2 hx hy hz]
  rw [tile_sum_cover (fun _ => (1 : ℚ))
      p0 p1 p2 m0 m1 m2 x y z hp0 hp1 hp2 hx hy hz]
  rw [Nat.add_sub_cancel' (Nat.div_mul_le_self x p0)]
  rw [Nat.add_sub_cancel' (Nat.div_mul_le_self y p1)]
  rw [Nat.add_sub_cancel' (Nat.div_mul_le_self z p2)]
  rw [div_one]

theorem tile_assemble_roundtrip_witness :
    (0 < 1) ∧ ((1 : ℤ) ∣ ((2 : ℤ) - (1 : ℤ))) ∧ ((1 : ℕ) < 2) ∧
    assemble_patches (put_patches_numba volWit 2 2 2 1 1 1 1 1 1)
      1 1 1 1 1 1 2 2 2 1 0 1 = volWit 1 0 1 :=
  ⟨by decide, one_dvd _, by decide,
   tile_assemble_roundtrip volWit 2 2 2 1 1 1 1 1 1
     (by decide) (by decide) (by decide) rfl rfl rfl
     (one_dvd _) (one_dvd _) (one_dvd _)
     1 0 1 (by decide) (by decide) (by decide)⟩

/-- C9: with `patch_shape <= shape` and a positive stride on each axis,
tiling produces exactly `prod ((shape - patch) / stride + 1)` patches, and
the patch at position `(ix * ns1 + iy) * ns2 + iz` — the rank of the loop
triple `(ix, iy, iz)` in the nested enumeration order (outer axis 0, then 1,
then 2) — is the sub-volume of `img` starting at
`(ix * stride0, iy * stride1, iz * stride2)`. -/
theorem put_patches_count_and_order
    (img : Vol3) (n0 n1 n2 p0 p1 p2 s0 s1 s2 : ℕ)
    (hs0 : 0 < s0) (hs1 : 0 < s1) (hs2 : 0 < s2)
    (hp0 : p0 ≤ n0) (hp1 : p1 ≤ n1) (hp2 : p2 ≤ n2) :
    (put_patches_numba img n0 n1 n2 p0 p1 p2 s0 s1 s2).length
        = ((n0 - p0) / s0 + 1) * (((n1 - p1) / s1 + 1) * ((n2 - p2) / s2 + 1))
      ∧ ∀ ix iy iz, ix < (n0 - p0) / s0 + 1 → iy < (n1 - p1) / s1 + 1 →
          iz < (n2 - p2) / s2 + 1 →
          (put_patches_numba img n0 n1 n2 p0 p1 p2 s0 s1 s2)[
              (ix * ((n1 - p1) / s1 + 1) + iy) * ((n2 - p2) / s2 + 1) + iz]?
            = some fun a b c => img (ix * s0 + a) (iy * s1 + b) (iz * s2 + c)
    := by
  have e0 := num_sections_of_le n0 p0 s0 hp0 hs0
  have e1 := num_sections_of_le n1 p1 s1 hp1 hs1
  have e2 := num_sections_of_le n2 p2 s2 hp2 hs2
  constructor
  · rw [put_patches_numba, List.length_map, length_tileIndices, e0, e1, e2]
  · intro ix iy iz hix hiy hiz
    rw [put_patches_numba, List.getElem?_map, e0, e1, e2,
      tileIndices_get _ _ _ ix iy iz hix hiy hiz]
    rfl

theorem put_patches_count_and_order_witness :
    (0 < 1) ∧ ((2 : ℕ) ≤ 3) ∧
    ((put_patches_numba volWit 3 3 3 2 2 2 1 1 1).length
        = ((3 - 2) / 1 + 1) * (((3 - 2) / 1 + 1) * ((3 - 2) / 1 + 1))) ∧
    (put_patches_numba volWit 3 3 3 2 2 2 1 1 1)[
        (1 * ((3 - 2) / 1 + 1) + 0) * ((3 - 2) / 1 + 1) + 1]?
      = some fun a b c => volWit (1 * 1 + a) (0 * 1 + b) (1 * 1 + c) :=
  ⟨by decide, by decide,
   (put_patches_count_and_order volWit 3 3 3 2 2 2 1 1 1
     (by decide) (by decide) (by decide) (by decide) (by decide) (by decide)).1,
   (put_patches_count_and_order volWit 3 3 3 2 2 2 1 1 1
     (by decide) (by decide) (by decide) (by decide) (by decide) (by decide)).2
     1 0 1 (by decide) (by decide) (by decide)⟩

/-! ### Embedding of ct_masked_batch.py -/

/-- `np.rint`: round to the nearest integer, ties to even. -/
def np_rint (q : ℚ) : ℤ :=
  let f := ⌊q⌋
  if q - (f : ℚ) < 1 / 2 then f
  else if (1 : ℚ) / 2 < q - (f : ℚ) then f + 1
  else if f % 2 = 0 then f else f + 1

/-- Truncation toward zero: Python `int(...)` and numpy `astype(np.int)` on a
float value. -/
def py_int_trunc (q : ℚ) : ℤ := if 0 ≤ q then ⌊q⌋ else ⌈q⌉

/-- One axis of `_fit_into_bounds` (ct_masked_batch.py lines 275-309), up to
but not including the final `+ offset` / `astype(np.int)`: the numpy
expressions are elementwise, so each axis is computed independently.
`jitter` stands for the multivariate-normal sample added when `variance` is
given (`0` when `variance is None`); the claims quantify over its value. -/
def _fit_into_bounds_axis (center origin spacing : ℚ) (size : ℤ) (jitter : ℚ)
    (img_size : ℤ) : ℚ :=
  let center_pix : ℚ := |center - origin| / spacing
  let start_pix0 : ℚ := (np_rint center_pix : ℚ)
    - (np_rint ((size : ℚ) / 2) : ℚ) + jitter
  let end_pix0 : ℚ := start_pix0 + (size : ℚ)
  let bias_upper : ℚ := max (end_pix0 - (img_size : ℚ)) 0
  let start_pix1 : ℚ := start_pix0 - bias_upper
  let bias_lower : ℚ := max (-start_pix1) 0
  start_pix1 + bias_lower

/-- The final line of `_fit_into_bounds` on one axis:
`(start_pix + offset).astype(np.int)`. -/
def _fit_into_bounds_axis_int (center origin spacing : ℚ) (size : ℤ)
    (jitter : ℚ) (img_size offset : ℤ) : ℤ :=
  py_int_trunc (_fit_into_bounds_axis center origin spacing size jitter img_size
    + (offset : ℚ))

/-- Modelled from the spec's words (§4.1 `clamped_start`, steps 3-5), for the
refinement comparison in C3: from the unclamped start, form `end`, subtract
the upper overflow from both, then add the lower underflow to both; returns
the final `(start, end)` pair. -/
def spec_clamped_start (start0 : ℚ) (size img_size : ℤ) : ℚ × ℚ :=
  let e0 := start0 + (size : ℚ)
  let overflow := max (e0 - (img_size : ℚ)) 0
  let s1 := start0 - overflow
  let e1 := e0 - overflow
  let underflow := max (-s1) 0
  (s1 + underflow, e1 + underflow)

theorem fit_eq_spec (center origin spacing : ℚ) (size : ℤ) (jitter : ℚ)
    (img_size : ℤ) :
    _fit_into_bounds_axis center origin spacing size jitter img_size
      = (spec_clamped_start ((np_rint (|center - origin| / spacing) : ℚ)
          - (np_rint ((size : ℚ) / 2) : ℚ) + jitter) size img_size).1 := rfl

theorem clamped_start_bounds (S : ℚ) (size img : ℤ)
    (h : (size : ℚ) ≤ (img : ℚ)) :
    0 ≤ (spec_clamped_start S size img).1 ∧
    (spec_clamped_start S size img).1 + (size : ℚ) ≤ (img : ℚ) := by
  unfold spec_clamped_start
  simp only
  rcases le_total (S + (size : ℚ) - (img : ℚ)) 0 with hU | hU
  · rw [max_eq_right hU]
    rcases le_total (-(S - 0)) 0 with hL | hL
    · rw [max_eq_right hL]
      constructor <;> linarith
    · rw [max_eq_left hL]
      constructor <;> linarith
  · rw [max_eq_left hU]
    rcases le_total (-(S - (S + (size : ℚ) - (img : ℚ)))) 0 with hL | hL
    · rw [max_eq_right hL]
      constructor <;> linarith
    · rw [max_eq_left hL]
      constructor <;> linarith

theorem clamped_start_pinned (S : ℚ) (size img : ℤ)
    (h : (img : ℚ) < (size : ℚ)) :
    spec_clamped_start S size img = (0, (size : ℚ)) := by
  unfold spec_clamped_start
  simp only
  rcases le_total (S + (size : ℚ) - (img : ℚ)) 0 with hU | hU
  · rw [max_eq_right hU]
    have hL : 0 ≤ -(S - 0) := by linarith
    rw [max_eq_left hL, Prod.mk.injEq]
    constructor <;> linarith
  · rw [max_eq_left hU]
    have hL : 0 ≤ -(S - (S + (size : ℚ) - (img : ℚ))) := by linarith
    rw [max_eq_left hL, Prod.mk.injEq]
    constructor <;> linarith

/-- C2: for every nodule geometry and jitter value, whenever
`size <= img_size` on an axis, the start computed by `_fit_into_bounds`
(before the record's offset is added) satisfies `0 <= start` and
`start + size <= img_size` on that axis. -/
theorem fit_into_bounds_clamp_correct (center origin spacing : ℚ) (size : ℤ)
    (jitter : ℚ) (img_size : ℤ) (h : size ≤ img_size) :
    0 ≤ _fit_into_bounds_axis center origin spacing size jitter img_size ∧
    _fit_into_bounds_axis center origin spacing size jitter img_size
      + (size : ℚ) ≤ (img_size : ℚ) := by
  rw [fit_eq_spec]
  exact clamped_start_bounds _ size img_size (by exact_mod_cast h)

theorem fit_into_bounds_clamp_correct_witness :
    ((4 : ℤ) ≤ 10) ∧
    (0 ≤ _fit_into_bounds_axis 5 0 1 4 0 10 ∧
     _fit_into_bounds_axis 5 0 1 4 0 10 + ((4 : ℤ) : ℚ) ≤ ((10 : ℤ) : ℚ)) :=
  ⟨by decide, fit_into_bounds_clamp_correct 5 0 1 4 0 10 (by decide)⟩

/-- C3: `_fit_into_bounds` follows the specified algorithm — pixel center
`abs(center - origin) / spacing`, unclamped start
`rint(center_pix) - rint(size / 2)` plus the optional jitter, then the upper
clamp before the lower clamp — and therefore, whenever `size > img_size`, the
final box is pinned to the lower bound: start `0` and end `size` (which then
exceeds `img_size`). -/
theorem fit_into_bounds_follows_spec (center origin spacing : ℚ) (size : ℤ)
    (jitter : ℚ) (img_size : ℤ) :
    (_fit_into_bounds_axis center origin spacing size jitter img_size
        = (spec_clamped_start ((np_rint (|center - origin| / spacing) : ℚ)
            - (np_rint ((size : ℚ) / 2) : ℚ) + jitter) size img_size).1)
    ∧ (img_size < size →
        spec_clamped_start ((np_rint (|center - origin| / spacing) : ℚ)
            - (np_rint ((size : ℚ) / 2) : ℚ) + jitter) size img_size
          = (0, (size : ℚ))) := by
  constructor
  · exact fit_eq_spec center origin spacing size jitter img_size
  · intro h
    exact clamped_start_pinned _ size img_size (by exact_mod_cast h)

theorem fit_into_bounds_follows_spec_witness :
    ((10 : ℤ) < 12) ∧
    spec_clamped_start ((np_rint (|(1 : ℚ) - 0| / 1) : ℚ)
        - (np_rint (((12 : ℤ) : ℚ) / 2) : ℚ) + 0) 12 10
      = (0, ((12 : ℤ) : ℚ)) :=
  ⟨by decide, (fit_into_bounds_follows_spec 1 0 1 12 0 10).2 (by decide)⟩

/-- `cancer_n` of `sample_nodules` (ct_masked_batch.py lines 448-450):
`int(share * batch_size)`, then replaced by `num_nodules` when it exceeds
it. -/
def cancer_n (share : ℚ) (batch_size num_nodules_val : ℕ) : ℤ :=
  let c := py_int_trunc (share * (batch_size : ℚ))
  if c > (num_nodules_val : ℤ) then (num_nodules_val : ℤ) else c

/-- The number of negative samples requested by `sample_nodules` (line 460):
`batch_size - cancer_n`. -/
def num_neg (share : ℚ) (batch_size num_nodules_val : ℕ) : ℤ :=
  (batch_size : ℤ) - cancer_n share batch_size num_nodules_val

/-- C4 counterexample: the claim says the positive count is
`min(round(share * batch_size), num_nodules)`, but for `share = 4/5` and
`batch_size = 7` the source computes `int(5.6) = 5`, not `round(5.6) = 6`. -/
theorem cancer_n_ne_round :
    cancer_n (4 / 5) 7 10 ≠ min (round ((4 / 5 : ℚ) * 7)) 10 := by
  have hc : cancer_n (4 / 5) 7 10 = 5 := by norm_num [cancer_n, py_int_trunc]
  have hr : round ((4 / 5 : ℚ) * 7) = 6 := by norm_num [round_eq]
  rw [hc, hr]
  decide

/-- C4 (amended): `n_pos = min(trunc(share * batch_size), num_nodules)` where
`trunc` truncates toward zero, and `n_neg = batch_size - n_pos`. -/
theorem sample_nodules_pos_neg_counts (share : ℚ)
    (batch_size num_nodules_val : ℕ) :
    cancer_n share batch_size num_nodules_val
        = min (py_int_trunc (share * (batch_size : ℚ))) (num_nodules_val : ℤ)
      ∧ num_neg share batch_size num_nodules_val
        = (batch_size : ℤ) - cancer_n share batch_size num_nodules_val := by
  refine ⟨?_, rfl⟩
  unfold cancer_n
  simp only
  split <;> omega

/-- One draw of `sample_random_nodules` (ct_masked_batch.py lines 376-410).
The uniformly chosen patient is abstracted by its lower bound `lb` and pixel
shape; `u0 u1 u2` stand for the three `np.random.rand` samples of the draw
(each in `[0, 1)`).  `offset` is `(lb, 0, 0)` — only axis 0 receives the
patient's lower bound (line 406) — and the final
`np.asarray(samples + offset, dtype=np.int)` truncates toward zero. -/
def sample_random_nodules_start (lb shape0 shape1 shape2 size0 size1 size2 : ℤ)
    (u0 u1 u2 : ℚ) : ℤ × ℤ × ℤ :=
  (py_int_trunc (u0 * ((shape0 : ℚ) - (size0 : ℚ)) + (lb : ℚ)),
   py_int_trunc (u1 * ((shape1 : ℚ) - (size1 : ℚ))),
   py_int_trunc (u2 * ((shape2 : ℚ) - (size2 : ℚ))))

theorem trunc_unit_scale (u : ℚ) (d : ℤ) (hu0 : 0 ≤ u) (hu1 : u < 1)
    (hd : 0 ≤ d) :
    0 ≤ py_int_trunc (u * (d : ℚ)) ∧ py_int_trunc (u * (d : ℚ)) ≤ d := by
  have hdq : (0 : ℚ) ≤ (d : ℚ) := by exact_mod_cast hd
  have hx0 : 0 ≤ u * (d : ℚ) := mul_nonneg hu0 hdq
  unfold py_int_trunc
  rw [if_pos hx0]
  constructor
  · exact Int.floor_nonneg.mpr hx0
  · have hle : u * (d : ℚ) ≤ (d : ℚ) := by
      calc u * (d : ℚ) ≤ 1 * (d : ℚ) :=
            mul_le_mul_of_nonneg_right (le_of_lt hu1) hdq
        _ = (d : ℚ) := one_mul _
    calc ⌊u * (d : ℚ)⌋ ≤ ⌊(d : ℚ)⌋ := Int.floor_le_floor hle
      _ = d := Int.floor_intCast d

theorem trunc_unit_scale_offset (u : ℚ) (d lb : ℤ) (hu0 : 0 ≤ u)
    (hd : 0 ≤ d) (hlb : 0 ≤ lb) :
    py_int_trunc (u * (d : ℚ) + (lb : ℚ))
      = py_int_trunc (u * (d : ℚ)) + lb := by
  have hdq : (0 : ℚ) ≤ (d : ℚ) := by exact_mod_cast hd
  have hx0 : 0 ≤ u * (d : ℚ) := mul_nonneg hu0 hdq
  have hx0' : 0 ≤ u * (d : ℚ) + (lb : ℚ) :=
    add_nonneg hx0 (by exact_mod_cast hlb)
  unfold py_int_trunc
  rw [if_pos hx0', if_pos hx0, Int.floor_add_int]

/-- C8: for a draw of `sample_random_nodules` with `nodule_size <= shape` on
every axis (and a patient with a non-negative lower bound), the returned
start, minus the patient's lower bound on axis 0, is an integer in
`[0, shape - nodule_size]` on every axis, so the sampled box stays inside the
sampled patient's own sub-range. -/
theorem sample_random_nodules_in_bounds
    (lb shape0 shape1 shape2 size0 size1 size2 : ℤ) (u0 u1 u2 : ℚ)
    (hlb : 0 ≤ lb)
    (hu0 : 0 ≤ u0) (hu0' : u0 < 1) (hu1 : 0 ≤ u1) (hu1' : u1 < 1)
    (hu2 : 0 ≤ u2) (hu2' : u2 < 1)
    (hs0 : size0 ≤ shape0) (hs1 : size1 ≤ shape1) (hs2 : size2 ≤ shape2) :
    (0 ≤ (sample_random_nodules_start lb shape0 shape1 shape2
            size0 size1 size2 u0 u1 u2).1 - lb
      ∧ (sample_random_nodules_start lb shape0 shape1 shape2
            size0 size1 size2 u0 u1 u2).1 - lb ≤ shape0 - size0)
    ∧ (0 ≤ (sample_random_nodules_start lb shape0 shape1 shape2
            size0 size1 size2 u0 u1 u2).2.1
      ∧ (sample_random_nodules_start lb shape0 shape1 shape2
            size0 size1 size2 u0 u1 u2).2.1 ≤ shape1 - size1)
    ∧ (0 ≤ (sample_random_nodules_start lb shape0 shape1 shape2
            size0 size1 size2 u0 u1 u2).2.2
      ∧ (sample_random_nodules_start lb shape0 shape1 shape2
            size0 size1 size2 u0 u1 u2).2.2 ≤ shape2 - size2) := by
  have e0 : (shape0 : ℚ) - (size0 : ℚ) = ((shape0 - size0 : ℤ) : ℚ) := by
    push_cast; ring
  have e1 : (shape1 : ℚ) - (size1 : ℚ) = ((shape1 - size1 : ℤ) : ℚ) := by
    push_cast; ring
  have e2 : (shape2 : ℚ) - (size2 : ℚ) = ((shape2 - size2 : ℤ) : ℚ) := by
    push_cast; ring
  have t0 := trunc_unit_scale u0 (shape0 - size0) hu0 hu0' (by omega)
  have t1 := trunc_unit_scale u1 (shape1 - size1) hu1 hu1' (by omega)
  have t2 := trunc_unit_scale u2 (shape2 - size2) hu2 hu2' (by omega)
  have toff := trunc_unit_scale_offset u0 (shape0 - size0) lb hu0 (by omega) hlb
  simp only [sample_random_nodules_start, e0, e1, e2, toff]
  refine ⟨⟨?_, ?_⟩, ⟨?_, ?_⟩, ?_, ?_⟩ <;> omega

theorem sample_random_nodules_in_bounds_witness :
    ((0 : ℤ) ≤ 7) ∧ ((0 : ℚ) ≤ 0) ∧ ((0 : ℚ) < 1) ∧
    ((2 : ℤ) ≤ 4) ∧ ((2 : ℤ) ≤ 5) ∧ ((2 : ℤ) ≤ 6) ∧
    ((0 ≤ (sample_random_nodules_start 7 4 5 6 2 2 2 0 0 0).1 - 7
      ∧ (sample_random_nodules_start 7 4 5 6 2 2 2 0 0 0).1 - 7 ≤ 4 - 2)
    ∧ (0 ≤ (sample_random_nodules_start 7 4 5 6 2 2 2 0 0 0).2.1
      ∧ (sample_random_nodules_start 7 4 5 6 2 2 2 0 0 0).2.1 ≤ 5 - 2)
    ∧ (0 ≤ (sample_random_nodules_start 7 4 5 6 2 2 2 0 0 0).2.2
      ∧ (sample_random_nodules_start 7 4 5 6 2 2 2 0 0 0).2.2 ≤ 6 - 2)) :=
  ⟨by decide, le_refl 0, zero_lt_one, by decide, by decide, by decide,
   sample_random_nodules_in_bounds 7 4 5 6 2 2 2 0 0 0
     (by decide) (le_refl 0) zero_lt_one (le_refl 0) zero_lt_one
     (le_refl 0) zero_lt_one (by decide) (by decide) (by decide)⟩

/-! ### Batch state: nodule registry, mask creation, refresh -/

/-- One row of the `self.nodules` record array (ct_masked_batch.py lines
104-110); triples are ordered `(z, y, x)`. -/
structure NoduleRecord where
  patient_pos : ℕ
  offset : ℤ × ℤ × ℤ
  img_size : ℤ × ℤ × ℤ
  nodule_center : ℚ × ℚ × ℚ
  nodule_size : ℚ × ℚ × ℚ
  spacing : ℚ × ℚ × ℚ
  origin : ℚ × ℚ × ℚ
deriving DecidableEq

/-- One row of the annotation table `nodules_df` consumed by
`fetch_nodules_info`; patient ids are abstracted as naturals. -/
structure AnnRow where
  seriesuid : ℕ
  coordZ : ℚ
  coordY : ℚ
  coordX : ℚ
  diameter_mm : ℚ
deriving DecidableEq

/-- The state of a `CTImagesMaskedBatch` relevant to the claims: the patient
index list, the stacked data volume, the per-patient geometry accessors
(`lower_bounds`, `spacing`, `origin`, `shape`, all indexed by patient
position), and the mutable `mask` / `nodules` attributes (both `None` after
`__init__`). -/
structure CTImagesMaskedBatch where
  indices : List ℕ
  data : ℕ → ℕ → ℕ → ℚ
  lower_bounds : ℕ → ℤ
  spacing : ℕ → ℚ × ℚ × ℚ
  origin : ℕ → ℚ × ℚ × ℚ
  shape : ℕ → ℤ × ℤ × ℤ
  mask : Option (ℕ → ℕ → ℕ → ℚ)
  nodules : Option (List NoduleRecord)

/-- `num_nodules` (lines 214-225): the docstring says `-1` when
`fetch_nodules_info` has not been called, but the code returns `0` in that
case; when the registry exists it returns the number of records. -/
def num_nodules (b : CTImagesMaskedBatch) : ℤ :=
  match b.nodules with
  | some ns => (ns.length : ℤ)
  | none => 0

/-- C10: `num_nodules` returns `0` — not `-1`, and without raising — when the
registry has not been ingested, and the number of records otherwise (the
embedding is a total function: the source raises no exception on either
path). -/
theorem num_nodules_cases (b : CTImagesMaskedBatch) :
    (b.nodules = none → num_nodules b = 0 ∧ num_nodules b ≠ -1)
    ∧ ∀ ns, b.nodules = some ns → num_nodules b = (ns.length : ℤ) := by
  constructor
  · intro h
    unfold num_nodules
    rw [h]
    exact ⟨rfl, by decide⟩
  · intro ns h
    unfold num_nodules
    rw [h]

/-- A batch fresh out of `__init__`: no mask, no nodule registry. -/
def emptyBatch : CTImagesMaskedBatch where
  indices := []
  data := fun _ _ _ => 0
  lower_bounds := fun _ => 0
  spacing := fun _ => (1, 1, 1)
  origin := fun _ => (0, 0, 0)
  shape := fun _ => (0, 0, 0)
  mask := none
  nodules := none

theorem num_nodules_cases_witness :
    emptyBatch.nodules = none
    ∧ num_nodules emptyBatch = 0 ∧ num_nodules emptyBatch ≠ -1 :=
  ⟨rfl, (num_nodules_cases emptyBatch).1 rfl⟩

/-- The per-record refresh performed by `_refresh_nodules_info` (lines
515-525): `offset[:, 0] = lower_bounds[patient_pos]` (only axis 0 of the
offset is written), and `spacing`, `origin`, `img_size` are re-read from the
batch geometry at `patient_pos`. -/
def refresh_record (b : CTImagesMaskedBatch) (r : NoduleRecord) : NoduleRecord :=
  { r with
    offset := (b.lower_bounds r.patient_pos, r.offset.2.1, r.offset.2.2)
    spacing := b.spacing r.patient_pos
    origin := b.origin r.patient_pos
    img_size := b.shape r.patient_pos }

/-- `_refresh_nodules_info` (lines 515-525).  When `self.nodules` is `None`
the attribute accesses raise `AttributeError`, modelled by `none`; callers
(`_rescale_spacing`, `fetch_nodules_info`) only invoke it on a populated
registry. -/
def _refresh_nodules_info (b : CTImagesMaskedBatch) :
    Option CTImagesMaskedBatch :=
  match b.nodules with
  | none => none
  | some ns => some { b with nodules := some (ns.map (refresh_record b)) }

/-- C7: refreshing twice in a row without an intervening geometry change is
the same as refreshing once — every field of every record (offset, spacing,
origin, img_size, patient_pos, nodule_center, nodule_size) keeps the value it
had after the first call, on every batch state. -/
theorem refresh_nodules_info_idempotent (b : CTImagesMaskedBatch) :
    (_refresh_nodules_info b).bind _refresh_nodules_info
      = _refresh_nodules_info b := by
  unfold _refresh_nodules_info
  cases h : b.nodules with
  | none => rfl
  | some ns =>
    simp only [Option.some_bind, List.map_map]
    have hrec : ∀ r : NoduleRecord,
        refresh_record { b with nodules := some (ns.map (refresh_record b)) }
          (refresh_record b r) = refresh_record b r := by
      intro r
      simp [refresh_record]
    simp [hrec, Function.comp_def]

/-- The per-axis start pixel computed inside `create_mask` (lines 325-329):
`rint(center_pix - rint(nodule_size / spacing / 2))` with
`center_pix = abs(nodule_center - origin) / spacing`. -/
def mask_start_pix (r : NoduleRecord) : ℤ × ℤ × ℤ :=
  (np_rint (|r.nodule_center.1 - r.origin.1| / r.spacing.1
     - (np_rint (r.nodule_size.1 / r.spacing.1 / 2) : ℚ)),
   np_rint (|r.nodule_center.2.1 - r.origin.2.1| / r.spacing.2.1
     - (np_rint (r.nodule_size.2.1 / r.spacing.2.1 / 2) : ℚ)),
   np_rint (|r.nodule_center.2.2 - r.origin.2.2| / r.spacing.2.2
     - (np_rint (r.nodule_size.2.2 / r.spacing.2.2 / 2) : ℚ)))

/-- The per-axis box extent passed to the rasterizer by `create_mask`
(line 332): `rint(nodule_size / spacing)`. -/
def mask_size_pix (r : NoduleRecord) : ℤ × ℤ × ℤ :=
  (np_rint (r.nodule_size.1 / r.spacing.1),
   np_rint (r.nodule_size.2.1 / r.spacing.2.1),
   np_rint (r.nodule_size.2.2 / r.spacing.2.2))

/-- Modelled from the spec: `make_mask_numba` is imported from
`src/preprocessing/mask.py`, which is not part of this snapshot.  Per spec
§4.2, it sets to foreground (1) every voxel of each record's axis-aligned box
— corner `offset + start`, extent `size`, per §4.1's note that the record's
offset translates local starts into stacked-array coordinates — restricted to
the record's own `offset .. offset + img_size` sub-range (passed here as the
`lo`/`hi` pair), leaving every other voxel of `mask` unchanged.  Each box is
`(lo, hi, start, size)`. -/
def make_mask_numba (mask : ℕ → ℕ → ℕ → ℚ)
    (boxes : List ((ℤ × ℤ × ℤ) × (ℤ × ℤ × ℤ) × (ℤ × ℤ × ℤ) × (ℤ × ℤ × ℤ))) :
    ℕ → ℕ → ℕ → ℚ :=
  fun x y z =>
    if boxes.any fun bx =>
        decide (bx.1.1 ≤ (x : ℤ) ∧ (x : ℤ) < bx.2.1.1 ∧
          bx.1.1 + bx.2.2.1.1 ≤ (x : ℤ) ∧
          (x : ℤ) < bx.1.1 + bx.2.2.1.1 + bx.2.2.2.1 ∧
          bx.1.2.1 ≤ (y : ℤ) ∧ (y : ℤ) < bx.2.1.2.1 ∧
          bx.1.2.1 + bx.2.2.1.2.1 ≤ (y : ℤ) ∧
          (y : ℤ) < bx.1.2.1 + bx.2.2.1.2.1 + bx.2.2.2.2.1 ∧
          bx.1.2.2 ≤ (z : ℤ) ∧ (z : ℤ) < bx.2.1.2.2 ∧
          bx.1.2.2 + bx.2.2.1.2.2 ≤ (z : ℤ) ∧
          (z : ℤ) < bx.1.2.2 + bx.2.2.1.2.2 + bx.2.2.2.2.2)
    then 1 else mask x y z

/-- `create_mask` (ct_masked_batch.py lines 313-334), returning the post-call
state, the warnings logged, and the error raised if any.  When
`self.nodules` is `None` the source logs its warning but does not return: it
still executes `self.mask = np.zeros_like(self.data)` (line 323) and then
raises `AttributeError` at `self.nodules.nodule_center` (line 325), so the
prior mask is lost.  On a populated registry it zero-fills the mask and
rasterizes every record's box. -/
def create_mask (b : CTImagesMaskedBatch) :
    CTImagesMaskedBatch × List String × Option String :=
  match b.nodules with
  | none =>
      ({ b with mask := some fun _ _ _ => 0 },
       ["Info about nodules location must be loaded before calling this method. Nothing happened."],
       some "AttributeError: NoneType object has no attribute nodule_center")
  | some ns =>
      let boxes := ns.map fun r =>
        (r.offset,
         (r.img_size.1 + r.offset.1, r.img_size.2.1 + r.offset.2.1,
          r.img_size.2.2 + r.offset.2.2),
         mask_start_pix r,
         mask_size_pix r)
      ({ b with mask := some (make_mask_numba (fun _ _ _ => 0) boxes) },
       [], none)

/-- C5: counter to the claim that calling `create_mask` before ingestion is a
recoverable no-op that preserves `self.mask`: on a fresh batch the call
raises `AttributeError` and has already replaced `self.mask` (previously
`None`) with a zero array — the `if self.nodules is None` branch logs
"Nothing happened" but is missing a `return`. -/
theorem create_mask_none_mutates_and_raises :
    (create_mask emptyBatch).2.2
        = some "AttributeError: NoneType object has no attribute nodule_center"
    ∧ (create_mask emptyBatch).1.mask ≠ none
    ∧ emptyBatch.mask = none
    ∧ (create_mask emptyBatch).2.1 ≠ [] := by
  refine ⟨rfl, ?_, rfl, ?_⟩ <;> simp [create_mask, emptyBatch]

/-- `fetch_nodules_info` (ct_masked_batch.py lines 227-272), returning the
post-call state and the warnings logged.  The guard (line 246) makes the call
a no-op when the registry is already populated and `update` is false.
Otherwise it takes the sorted intersection of the annotation ids with the
batch ids (`np.intersect1d` of the unique ids), gathers the rows of each such
id in that order (`.loc[inter_index]`), builds one zero-initialised record
per row with `patient_pos = index.get_pos(id)`, the world center
`(coordZ, coordY, coordX)` and the cubic size `(diam, diam, diam)`, and ends
with `_refresh_nodules_info` (which cannot fail here since the registry was
just assigned). -/
def fetch_nodules_info (b : CTImagesMaskedBatch) (nodules_df : List AnnRow)
    (update : Bool) : CTImagesMaskedBatch × List String :=
  match b.nodules, update with
  | some _, false =>
      (b, ["Nodules have already been extracted. Put update argument as True for refreshing"])
  | _, _ =>
      let inter := (((nodules_df.map fun r => r.seriesuid).filter
          fun i => i ∈ b.indices).dedup).insertionSort (· ≤ ·)
      let rows := inter.flatMap fun i =>
        nodules_df.filter fun r => r.seriesuid = i
      let recs : List NoduleRecord := rows.map fun r =>
        { patient_pos := b.indices.indexOf r.seriesuid
          offset := (0, 0, 0)
          img_size := (0, 0, 0)
          nodule_center := (r.coordZ, r.coordY, r.coordX)
          nodule_size := (r.diameter_mm, r.diameter_mm, r.diameter_mm)
          spacing := (0, 0, 0)
          origin := (0, 0, 0) }
      let b1 := { b with nodules := some recs }
      ((_refresh_nodules_info b1).getD b1, [])

/-- C6: calling `fetch_nodules_info` with `update=False` on an
already-populated registry returns `self` unchanged — in particular
`self.nodules` is untouched — and only emits a diagnostic. -/
theorem fetch_nodules_info_noop (b : CTImagesMaskedBatch)
    (nodules_df : List AnnRow) (h : b.nodules ≠ none) :
    fetch_nodules_info b nodules_df false
      = (b, ["Nodules have already been extracted. Put update argument as True for refreshing"]) := by
  unfold fetch_nodules_info
  cases hb : b.nodules with
  | none => exact absurd hb h
  | some ns => rfl

/-- A batch whose registry has already been ingested (with no records). -/
def batchWithNodules : CTImagesMaskedBatch :=
  { emptyBatch with nodules := some [] }

theorem fetch_nodules_info_noop_witness :
    batchWithNodules.nodules ≠ none
    ∧ fetch_nodules_info batchWithNodules [] false
      = (batchWithNodules,
         ["Nodules have already been extracted. Put update argument as True for refreshing"]) :=
  ⟨by simp [batchWithNodules, emptyBatch],
   fetch_nodules_info_noop batchWithNodules []
     (by simp [batchWithNodules, emptyBatch])⟩
